import Mathlib

/-!
Verification of the constraint-propagation knowledge engine of
`src/minesweeper/minesweeper.py` (classes `Sentence` and `MinesweeperAI`).

Cells are integer coordinate pairs.  Python sets of cells are modelled as
`Finset (ℤ × ℤ)`; the knowledge base is an ordered `List Sentence` exactly as
in the source.  Python iterates over sets in an unspecified order; since every
marking operation used by the engine is commutative and idempotent, we iterate
over a canonical sorted listing of the set, which realises one admissible
iteration order.  Machine integers are modelled as `ℤ` (counts may go negative
in the source, since `mark_mine` decrements and subsumption subtracts without
any check).
-/

abbrev Cell := ℤ × ℤ

/-- `Sentence(cells, count)` from the source: the logical statement that
exactly `count` of `cells` are mines.  Equality is structural, matching the
source's `__eq__`. -/
structure Sentence where
  cells : Finset Cell
  count : ℤ
deriving DecidableEq

namespace Sentence

/-- `Sentence.known_mines`: all of `cells` when `len(cells) == count`, else
the empty set. -/
def known_mines (t : Sentence) : Finset Cell :=
  if (t.cells.card : ℤ) = t.count then t.cells else ∅

/-- `Sentence.known_safes`: all of `cells` when `count == 0`, else empty. -/
def known_safes (t : Sentence) : Finset Cell :=
  if t.count = 0 then t.cells else ∅

/-- `Sentence.mark_mine`: if the cell is present, remove it and decrement
`count`. -/
def mark_mine (t : Sentence) (c : Cell) : Sentence :=
  if c ∈ t.cells then ⟨t.cells.erase c, t.count - 1⟩ else t

/-- `Sentence.mark_safe`: if the cell is present, remove it; `count`
unchanged. -/
def mark_safe (t : Sentence) (c : Cell) : Sentence :=
  if c ∈ t.cells then ⟨t.cells.erase c, t.count⟩ else t

end Sentence

/-- Row-major order on cells, used as the canonical iteration order for
Python's unordered set iteration (the engine's results do not depend on the
order; see the commutativity remarks above). -/
def cellLe (a b : Cell) : Prop :=
  a.1 < b.1 ∨ (a.1 = b.1 ∧ a.2 ≤ b.2)

instance : DecidableRel cellLe := fun a b => by
  unfold cellLe; infer_instance

instance : IsTrans Cell cellLe := by
  constructor
  rintro ⟨a1, a2⟩ ⟨b1, b2⟩ ⟨c1, c2⟩ hab hbc
  simp only [cellLe] at *
  omega

instance : IsAntisymm Cell cellLe := by
  constructor
  rintro ⟨a1, a2⟩ ⟨b1, b2⟩ hab hba
  simp only [cellLe] at *
  have h1 : a1 = b1 := by omega
  have h2 : a2 = b2 := by omega
  simp [h1, h2]

instance : IsTotal Cell cellLe := by
  constructor
  rintro ⟨a1, a2⟩ ⟨b1, b2⟩
  simp only [cellLe]
  omega

/-- Sorting respects permutation, so insertion sort lifts to multisets. -/
def sortedMulti (m : Multiset Cell) : List Cell :=
  Quotient.lift (List.insertionSort cellLe)
    (fun a b h => List.eq_of_perm_of_sorted
      (((List.perm_insertionSort cellLe a).trans h).trans
        (List.perm_insertionSort cellLe b).symm)
      (List.sorted_insertionSort cellLe a)
      (List.sorted_insertionSort cellLe b)) m

/-- Canonical listing of a finite set of cells. -/
def sortedCells (F : Finset Cell) : List Cell :=
  sortedMulti F.val

/-- The AI state of class `MinesweeperAI`: board dimensions, the moves made,
the known mines and safes, and the ordered knowledge list. -/
structure MinesweeperAI where
  height : ℤ
  width : ℤ
  moves_made : Finset Cell
  mines : Finset Cell
  safes : Finset Cell
  knowledge : List Sentence
deriving DecidableEq

/-- `MinesweeperAI.__init__`: fresh engine with empty knowledge. -/
def initAI (height width : ℤ) : MinesweeperAI :=
  ⟨height, width, ∅, ∅, ∅, []⟩

namespace MinesweeperAI

/-- `MinesweeperAI.mark_mine`: add the cell to `mines` and propagate
`Sentence.mark_mine` through every sentence. -/
def mark_mine (s : MinesweeperAI) (c : Cell) : MinesweeperAI :=
  { s with mines := insert c s.mines,
           knowledge := s.knowledge.map (fun t => t.mark_mine c) }

/-- `MinesweeperAI.mark_safe`: add the cell to `safes` and propagate
`Sentence.mark_safe` through every sentence. -/
def mark_safe (s : MinesweeperAI) (c : Cell) : MinesweeperAI :=
  { s with safes := insert c s.safes,
           knowledge := s.knowledge.map (fun t => t.mark_safe c) }

end MinesweeperAI

/-- Neighbor set of the first (copy-pasted) block of `add_knowledge`
(lines 200–204): `itertools.product` over ranges clamped with `max`/`min`,
excluding the cell itself. -/
def obsCells1 (height width : ℤ) (cell : Cell) : Finset Cell :=
  ((Finset.Ico (max 0 (cell.1 - 1)) (min height (cell.1 + 2))) ×ˢ
   (Finset.Ico (max 0 (cell.2 - 1)) (min width (cell.2 + 2)))).filter
    (fun p => p ≠ cell)

/-- Neighbor set of the second block of `add_knowledge` (lines 247–250):
unclamped ranges with an explicit bounds check. -/
def obsCells2 (height width : ℤ) (cell : Cell) : Finset Cell :=
  ((Finset.Ico (cell.1 - 1) (cell.1 + 2)) ×ˢ
   (Finset.Ico (cell.2 - 1) (cell.2 + 2))).filter
    (fun p => p ≠ cell ∧ 0 ≤ p.1 ∧ p.1 < height ∧ 0 ≤ p.2 ∧ p.2 < width)

/-- One iteration of step 4's scan of the knowledge list
(lines 212–216 / 259–263): union the sentence's `known_safes` and
`known_mines` into the two accumulators, guarded by Python truthiness (an
empty set is skipped, which does not affect the union). -/
def deriveStep (acc : Finset Cell × Finset Cell) (t : Sentence) :
    Finset Cell × Finset Cell :=
  let acc1 := if t.known_safes ≠ ∅ then (acc.1 ∪ t.known_safes, acc.2) else acc
  if t.known_mines ≠ ∅ then (acc1.1, acc1.2 ∪ t.known_mines) else acc1

/-- Step 4's scan of the whole knowledge list: `newly_safe` and
`newly_mines`. -/
def deriveFacts (kn : List Sentence) : Finset Cell × Finset Cell :=
  kn.foldl deriveStep (∅, ∅)

/-- The loop `for safe_cell in newly_safe: self.mark_safe(safe_cell)`
(lines 218–219 / 265–266), iterated in canonical order. -/
def markSafeAll (s : MinesweeperAI) (F : Finset Cell) : MinesweeperAI :=
  (sortedCells F).foldl MinesweeperAI.mark_safe s

/-- The loop `for mine_cell in newly_mines: self.mark_mine(mine_cell)`
(lines 221–222 / 268–269), iterated in canonical order. -/
def markMineAll (s : MinesweeperAI) (F : Finset Cell) : MinesweeperAI :=
  (sortedCells F).foldl MinesweeperAI.mark_mine s

/-- The body of step 5's inner loop (lines 227–232 / 275–280): when
`sentence1` and `sentence2` are structurally distinct and
`sentence1.cells ⊆ sentence2.cells`, collect the subsumption-derived
sentence. -/
def subsumeWith (s1 : Sentence) (acc : List Sentence) (s2 : Sentence) :
    List Sentence :=
  if s1 ≠ s2 ∧ s1.cells ⊆ s2.cells then
    acc ++ [⟨s2.cells \ s1.cells, s2.count - s1.count⟩]
  else acc

/-- Step 5's collected `inferred_sentences`, in nested-loop order. -/
def inferNew (kn : List Sentence) : List Sentence :=
  kn.foldl (fun acc s1 => kn.foldl (subsumeWith s1) acc) []

/-- The append loop (lines 234–236 / 282–284): append each collected sentence
unless a structurally equal one is already present (checked against the
growing list). -/
def appendNew (s : MinesweeperAI) (l : List Sentence) : MinesweeperAI :=
  l.foldl
    (fun st t => if t ∈ st.knowledge then st
                 else { st with knowledge := st.knowledge ++ [t] })
    s

/-- Step 3's unconditional append of the observation sentence
(lines 205–206 / 251–252). -/
def appendObs (obs : ℤ → ℤ → Cell → Finset Cell) (s : MinesweeperAI)
    (cell : Cell) (count : ℤ) : MinesweeperAI :=
  { s with knowledge := s.knowledge ++ [⟨obs s.height s.width cell, count⟩] }

/-- One of the two identical halves of `add_knowledge`, parameterised by its
neighbor-set computation: record the move, mark the cell safe, append the
observation sentence, run one derivation-and-mark pass, then one subsumption
pass. -/
def addKnowledgeBlock (obs : ℤ → ℤ → Cell → Finset Cell) (s : MinesweeperAI)
    (cell : Cell) (count : ℤ) : MinesweeperAI :=
  let s1 := { s with moves_made := insert cell s.moves_made }
  let s2 := s1.mark_safe cell
  let s3 := appendObs obs s2 cell count
  let f := deriveFacts s3.knowledge
  let s4 := markSafeAll s3 f.1
  let s5 := markMineAll s4 f.2
  appendNew s5 (inferNew s5.knowledge)

/-- `MinesweeperAI.add_knowledge` (lines 177–284): the body is duplicated in
the source, so the whole block runs twice — first with the `itertools`
neighbor computation, then with the explicit-loop one. -/
def MinesweeperAI.add_knowledge (s : MinesweeperAI) (cell : Cell) (count : ℤ) :
    MinesweeperAI :=
  addKnowledgeBlock obsCells2 (addKnowledgeBlock obsCells1 s cell count) cell count

/-- `MinesweeperAI.make_safe_move` (lines 286–299): first safe cell not yet
played, recorded into `moves_made` as a side effect; `none` if there is no
such cell. -/
def MinesweeperAI.make_safe_move (s : MinesweeperAI) :
    MinesweeperAI × Option Cell :=
  match (sortedCells s.safes).find? (fun c => decide (c ∉ s.moves_made)) with
  | some c => ({ s with moves_made := insert c s.moves_made }, some c)
  | none => (s, none)

/-- `MinesweeperAI.make_flag_move` (lines 317–326): first known mine not yet
played, recorded into `moves_made` as a side effect. -/
def MinesweeperAI.make_flag_move (s : MinesweeperAI) :
    MinesweeperAI × Option Cell :=
  match (sortedCells s.mines).find? (fun c => decide (c ∉ s.moves_made)) with
  | some c => ({ s with moves_made := insert c s.moves_made }, some c)
  | none => (s, none)

/-- `possible_moves` of `make_random_move` (line 308): the full board. -/
def boardCells (height width : ℤ) : Finset Cell :=
  (Finset.Ico 0 height) ×ˢ (Finset.Ico 0 width)

/-- `valid_moves` of `make_random_move` (line 309). -/
def validMoves (s : MinesweeperAI) : Finset Cell :=
  (boardCells s.height s.width \ s.moves_made) \ s.mines

/-- `MinesweeperAI.make_random_move` (lines 301–312): `random.choice` over
the valid moves, modelled by an arbitrary selection index `k`; `none` exactly
when no valid move exists.  The function does not mutate the state. -/
def MinesweeperAI.make_random_move (s : MinesweeperAI) (k : ℕ) : Option Cell :=
  let l := sortedCells (validMoves s)
  if h : l.length = 0 then none
  else some (l.get ⟨k % l.length, Nat.mod_lt _ (Nat.pos_of_ne_zero h)⟩)

/-- `MinesweeperAI.add_move` (lines 314–315). -/
def MinesweeperAI.add_move (s : MinesweeperAI) (c : Cell) : MinesweeperAI :=
  { s with moves_made := insert c s.moves_made }

/-- One engine call, for stating properties of call sequences.  A random move
returns a cell but mutates nothing. -/
inductive AIOp where
  | observe (cell : Cell) (count : ℤ)
  | safeMove
  | flagMove
  | randomMove (k : ℕ)

/-- Apply one call to the state. -/
def applyOp (s : MinesweeperAI) : AIOp → MinesweeperAI
  | .observe c n => s.add_knowledge c n
  | .safeMove => s.make_safe_move.1
  | .flagMove => s.make_flag_move.1
  | .randomMove _ => s

/-- Run a sequence of calls. -/
def runOps (s : MinesweeperAI) (l : List AIOp) : MinesweeperAI :=
  l.foldl applyOp s

/-- Run a sequence of observations from a fresh engine. -/
def runObs (height width : ℤ) (l : List (Cell × ℤ)) : MinesweeperAI :=
  l.foldl (fun s p => s.add_knowledge p.1 p.2) (initAI height width)

/-- The spec's description of the observation's neighborhood: all cells
within Chebyshev distance 1 of `cell`, excluding `cell` itself, clipped to
board bounds. -/
def chebNeighbors (height width : ℤ) (cell : Cell) : Finset Cell :=
  (boardCells height width).filter
    (fun p => p ≠ cell ∧ max |p.1 - cell.1| |p.2 - cell.2| ≤ 1)

/-- Following the spec's words (claim C2), for comparison with the code: the
observation constraint the claim describes — neighbors minus the
already-resolved cells, count reduced by the number of excluded known
mines. -/
def specObsSentence (s : MinesweeperAI) (cell : Cell) (count : ℤ) : Sentence :=
  ⟨(chebNeighbors s.height s.width cell \ s.mines) \ s.safes,
   count - ((chebNeighbors s.height s.width cell ∩ s.mines).card : ℤ)⟩

/-- Following the spec's words (claim C2): append the observation constraint
only when its cell set is non-empty. -/
def specAppendObs (s : MinesweeperAI) (cell : Cell) (count : ℤ) :
    MinesweeperAI :=
  if (specObsSentence s cell count).cells ≠ ∅ then
    { s with knowledge := s.knowledge ++ [specObsSentence s cell count] }
  else s

/-- Claim C1's "no newly marked mine or safe cell": one more derivation pass
over the knowledge marks nothing new. -/
def derivationClosed (s : MinesweeperAI) : Prop :=
  (deriveFacts s.knowledge).1 ⊆ s.safes ∧ (deriveFacts s.knowledge).2 ⊆ s.mines

/-- The state after marking everything one further derivation pass yields. -/
def afterMarks (s : MinesweeperAI) : MinesweeperAI :=
  markMineAll (markSafeAll s (deriveFacts s.knowledge).1)
    (deriveFacts s.knowledge).2

/-- Claim C1's fixpoint property: one additional full pass — derivation over
every sentence, marking the results, and subsumption over every ordered pair
— produces no newly marked cell and no new sentence. -/
def inferenceFixpoint (s : MinesweeperAI) : Prop :=
  derivationClosed s ∧
  ∀ t ∈ inferNew (afterMarks s).knowledge, t ∈ (afterMarks s).knowledge

instance (s : MinesweeperAI) : Decidable (derivationClosed s) := by
  unfold derivationClosed; infer_instance

instance (s : MinesweeperAI) : Decidable (inferenceFixpoint s) := by
  unfold inferenceFixpoint; infer_instance

/-- A sentence is true of mine placement `M` when exactly `count` of its
cells lie in `M`. -/
def SentenceTrue (M : Finset Cell) (t : Sentence) : Prop :=
  t.count = ((t.cells ∩ M).card : ℤ)

/-- The knowledge store is sound for mine placement `M`: known mines are
mines, known safes are not, and every sentence is true of `M`. -/
def Sound (M : Finset Cell) (s : MinesweeperAI) : Prop :=
  (∀ c ∈ s.mines, c ∈ M) ∧ (∀ c ∈ s.safes, c ∉ M) ∧
  (∀ t ∈ s.knowledge, SentenceTrue M t)

/-- An observation sequence is consistent with ground-truth mine placement
`M`: every observed cell is a non-mine and every reported count is the true
number of mines among the cell's in-bounds neighbors. -/
def ConsistentSeq (M : Finset Cell) (height width : ℤ)
    (l : List (Cell × ℤ)) : Prop :=
  ∀ p ∈ l, p.1 ∉ M ∧ p.2 = ((obsCells2 height width p.1 ∩ M).card : ℤ)

instance (M : Finset Cell) (height width : ℤ) (l : List (Cell × ℤ)) :
    Decidable (ConsistentSeq M height width l) := by
  unfold ConsistentSeq; infer_instance

/-- `Grows s t`: the board dimensions agree and `moves_made`, `mines`,
`safes` and the knowledge length only grow from `s` to `t`. -/
def Grows (s t : MinesweeperAI) : Prop :=
  s.height = t.height ∧ s.width = t.width ∧
  s.moves_made ⊆ t.moves_made ∧ s.mines ⊆ t.mines ∧ s.safes ⊆ t.safes ∧
  s.knowledge.length ≤ t.knowledge.length

/-- Consistent gameplay on a 2×3 board with a single mine at `(0,0)`: the
three non-mine cells adjacent to the mine are observed with their true
counts. -/
def c1Trace : List (Cell × ℤ) :=
  [(((0:ℤ),(1:ℤ)), 1), (((1:ℤ),(0:ℤ)), 1), (((1:ℤ),(1:ℤ)), 1)]

/-- A store containing exactly claim C6's constraints `A` and `B`. -/
def stateAB : MinesweeperAI :=
  ⟨3, 3, ∅, ∅, ∅,
   [⟨{((0:ℤ),(0:ℤ)), ((0:ℤ),(1:ℤ))}, 1⟩,
    ⟨{((0:ℤ),(0:ℤ)), ((0:ℤ),(1:ℤ)), ((0:ℤ),(2:ℤ))}, 2⟩]⟩

/-- Two observations on a 1×3 board, each with a count between 0 and the
number of valid neighbors, but mutually contradictory. -/
def c4Trace : List (Cell × ℤ) := [(((0:ℤ),(0:ℤ)), 1), (((0:ℤ),(2:ℤ)), 0)]

/-- Two observations on a 3×3 board, each with a count between 0 and the
number of valid neighbors, but mutually contradictory. -/
def c7Trace : List (Cell × ℤ) := [(((0:ℤ),(2:ℤ)), 1), (((1:ℤ),(1:ℤ)), 0)]

/-! ### Basic facts about the canonical set listing -/

theorem mem_sortedMulti (c : Cell) (m : Multiset Cell) :
    c ∈ sortedMulti m ↔ c ∈ m := by
  induction m using Quotient.inductionOn with
  | h l => exact (List.perm_insertionSort cellLe l).mem_iff

theorem mem_sortedCells (c : Cell) (F : Finset Cell) :
    c ∈ sortedCells F ↔ c ∈ F := by
  rw [sortedCells, mem_sortedMulti]
  exact Iff.rfl

theorem length_sortedCells (F : Finset Cell) :
    (sortedCells F).length = F.card := by
  rw [sortedCells, Finset.card_def, sortedMulti]
  induction F.val using Quotient.inductionOn with
  | h l => exact (List.perm_insertionSort cellLe l).length_eq

/-! ### The two neighbor computations agree, and match the spec's
Chebyshev-distance description -/

theorem obsCells1_eq_cheb (height width : ℤ) (cell : Cell) :
    obsCells1 height width cell = chebNeighbors height width cell := by
  obtain ⟨ci, cj⟩ := cell
  ext ⟨pi, pj⟩
  simp only [obsCells1, chebNeighbors, boardCells, Finset.mem_filter,
    Finset.mem_product, Finset.mem_Ico, ne_eq, Prod.mk.injEq, not_and,
    max_le_iff, abs_le]
  omega

theorem obsCells2_eq_cheb (height width : ℤ) (cell : Cell) :
    obsCells2 height width cell = chebNeighbors height width cell := by
  obtain ⟨ci, cj⟩ := cell
  ext ⟨pi, pj⟩
  simp only [obsCells2, chebNeighbors, boardCells, Finset.mem_filter,
    Finset.mem_product, Finset.mem_Ico, ne_eq, Prod.mk.injEq, not_and,
    max_le_iff, abs_le]
  omega

theorem obsCells1_eq_obsCells2 (height width : ℤ) (cell : Cell) :
    obsCells1 height width cell = obsCells2 height width cell := by
  rw [obsCells1_eq_cheb, obsCells2_eq_cheb]

/-! ### Frame lemmas: which fields each stage of the engine can touch -/

theorem foldl_eq_field {α β : Type} (f : MinesweeperAI → β)
    (step : MinesweeperAI → α → MinesweeperAI)
    (h : ∀ s a, f (step s a) = f s) :
    ∀ (l : List α) (s : MinesweeperAI), f (l.foldl step s) = f s := by
  intro l
  induction l with
  | nil => intro s; rfl
  | cons a t ih => intro s; rw [List.foldl_cons, ih, h]

theorem mark_safe_height (s : MinesweeperAI) (c : Cell) :
    (s.mark_safe c).height = s.height := rfl

theorem mark_safe_width (s : MinesweeperAI) (c : Cell) :
    (s.mark_safe c).width = s.width := rfl

theorem mark_safe_moves (s : MinesweeperAI) (c : Cell) :
    (s.mark_safe c).moves_made = s.moves_made := rfl

theorem mark_safe_mines (s : MinesweeperAI) (c : Cell) :
    (s.mark_safe c).mines = s.mines := rfl

theorem mark_safe_safes (s : MinesweeperAI) (c : Cell) :
    (s.mark_safe c).safes = insert c s.safes := rfl

theorem mark_safe_klength (s : MinesweeperAI) (c : Cell) :
    (s.mark_safe c).knowledge.length = s.knowledge.length := by
  simp [MinesweeperAI.mark_safe]

theorem mark_mine_height (s : MinesweeperAI) (c : Cell) :
    (s.mark_mine c).height = s.height := rfl

theorem mark_mine_width (s : MinesweeperAI) (c : Cell) :
    (s.mark_mine c).width = s.width := rfl

theorem mark_mine_moves (s : MinesweeperAI) (c : Cell) :
    (s.mark_mine c).moves_made = s.moves_made := rfl

theorem mark_mine_mines (s : MinesweeperAI) (c : Cell) :
    (s.mark_mine c).mines = insert c s.mines := rfl

theorem mark_mine_safes (s : MinesweeperAI) (c : Cell) :
    (s.mark_mine c).safes = s.safes := rfl

theorem mark_mine_klength (s : MinesweeperAI) (c : Cell) :
    (s.mark_mine c).knowledge.length = s.knowledge.length := by
  simp [MinesweeperAI.mark_mine]

theorem markSafeAll_height (s : MinesweeperAI) (F : Finset Cell) :
    (markSafeAll s F).height = s.height :=
  foldl_eq_field MinesweeperAI.height MinesweeperAI.mark_safe
    (fun _ _ => rfl) (sortedCells F) s

theorem markSafeAll_width (s : MinesweeperAI) (F : Finset Cell) :
    (markSafeAll s F).width = s.width :=
  foldl_eq_field MinesweeperAI.width MinesweeperAI.mark_safe
    (fun _ _ => rfl) (sortedCells F) s

theorem markSafeAll_moves (s : MinesweeperAI) (F : Finset Cell) :
    (markSafeAll s F).moves_made = s.moves_made :=
  foldl_eq_field MinesweeperAI.moves_made MinesweeperAI.mark_safe
    (fun _ _ => rfl) (sortedCells F) s

theorem markSafeAll_mines (s : MinesweeperAI) (F : Finset Cell) :
    (markSafeAll s F).mines = s.mines :=
  foldl_eq_field MinesweeperAI.mines MinesweeperAI.mark_safe
    (fun _ _ => rfl) (sortedCells F) s

theorem markSafeAll_klength (s : MinesweeperAI) (F : Finset Cell) :
    (markSafeAll s F).knowledge.length = s.knowledge.length :=
  foldl_eq_field (fun t => t.knowledge.length) MinesweeperAI.mark_safe
    mark_safe_klength (sortedCells F) s

theorem markMineAll_height (s : MinesweeperAI) (F : Finset Cell) :
    (markMineAll s F).height = s.height :=
  foldl_eq_field MinesweeperAI.height MinesweeperAI.mark_mine
    (fun _ _ => rfl) (sortedCells F) s

theorem markMineAll_width (s : MinesweeperAI) (F : Finset Cell) :
    (markMineAll s F).width = s.width :=
  foldl_eq_field MinesweeperAI.width MinesweeperAI.mark_mine
    (fun _ _ => rfl) (sortedCells F) s

theorem markMineAll_moves (s : MinesweeperAI) (F : Finset Cell) :
    (markMineAll s F).moves_made = s.moves_made :=
  foldl_eq_field MinesweeperAI.moves_made MinesweeperAI.mark_mine
    (fun _ _ => rfl) (sortedCells F) s

theorem markMineAll_safes (s : MinesweeperAI) (F : Finset Cell) :
    (markMineAll s F).safes = s.safes :=
  foldl_eq_field MinesweeperAI.safes MinesweeperAI.mark_mine
    (fun _ _ => rfl) (sortedCells F) s

theorem markMineAll_klength (s : MinesweeperAI) (F : Finset Cell) :
    (markMineAll s F).knowledge.length = s.knowledge.length :=
  foldl_eq_field (fun t => t.knowledge.length) MinesweeperAI.mark_mine
    mark_mine_klength (sortedCells F) s

theorem appendNew_height (s : MinesweeperAI) (l : List Sentence) :
    (appendNew s l).height = s.height :=
  foldl_eq_field MinesweeperAI.height _
    (fun s t => by by_cases h : t ∈ s.knowledge <;> simp [h]) _ s

theorem appendNew_width (s : MinesweeperAI) (l : List Sentence) :
    (appendNew s l).width = s.width :=
  foldl_eq_field MinesweeperAI.width _
    (fun s t => by by_cases h : t ∈ s.knowledge <;> simp [h]) _ s

theorem appendNew_moves (s : MinesweeperAI) (l : List Sentence) :
    (appendNew s l).moves_made = s.moves_made :=
  foldl_eq_field MinesweeperAI.moves_made _
    (fun s t => by by_cases h : t ∈ s.knowledge <;> simp [h]) _ s

theorem appendNew_mines (s : MinesweeperAI) (l : List Sentence) :
    (appendNew s l).mines = s.mines :=
  foldl_eq_field MinesweeperAI.mines _
    (fun s t => by by_cases h : t ∈ s.knowledge <;> simp [h]) _ s

theorem appendNew_safes (s : MinesweeperAI) (l : List Sentence) :
    (appendNew s l).safes = s.safes :=
  foldl_eq_field MinesweeperAI.safes _
    (fun s t => by by_cases h : t ∈ s.knowledge <;> simp [h]) _ s

theorem appendNew_klength_le (s : MinesweeperAI) (l : List Sentence) :
    s.knowledge.length ≤ (appendNew s l).knowledge.length := by
  induction l generalizing s with
  | nil => exact le_refl _
  | cons t rest ih =>
    rw [appendNew, List.foldl_cons]
    refine le_trans ?_ (ih _)
    by_cases h : t ∈ s.knowledge <;> simp [h]

theorem appendObs_height (obs : ℤ → ℤ → Cell → Finset Cell)
    (s : MinesweeperAI) (cell : Cell) (count : ℤ) :
    (appendObs obs s cell count).height = s.height := rfl

theorem appendObs_width (obs : ℤ → ℤ → Cell → Finset Cell)
    (s : MinesweeperAI) (cell : Cell) (count : ℤ) :
    (appendObs obs s cell count).width = s.width := rfl

theorem appendObs_moves (obs : ℤ → ℤ → Cell → Finset Cell)
    (s : MinesweeperAI) (cell : Cell) (count : ℤ) :
    (appendObs obs s cell count).moves_made = s.moves_made := rfl

theorem appendObs_knowledge (obs : ℤ → ℤ → Cell → Finset Cell)
    (s : MinesweeperAI) (cell : Cell) (count : ℤ) :
    (appendObs obs s cell count).knowledge
      = s.knowledge ++ [⟨obs s.height s.width cell, count⟩] := rfl

theorem block_height (obs : ℤ → ℤ → Cell → Finset Cell)
    (s : MinesweeperAI) (cell : Cell) (count : ℤ) :
    (addKnowledgeBlock obs s cell count).height = s.height := by
  simp only [addKnowledgeBlock]
  rw [appendNew_height, markMineAll_height, markSafeAll_height]
  rfl

theorem block_width (obs : ℤ → ℤ → Cell → Finset Cell)
    (s : MinesweeperAI) (cell : Cell) (count : ℤ) :
    (addKnowledgeBlock obs s cell count).width = s.width := by
  simp only [addKnowledgeBlock]
  rw [appendNew_width, markMineAll_width, markSafeAll_width]
  rfl

theorem block_moves (obs : ℤ → ℤ → Cell → Finset Cell)
    (s : MinesweeperAI) (cell : Cell) (count : ℤ) :
    (addKnowledgeBlock obs s cell count).moves_made
      = insert cell s.moves_made := by
  simp only [addKnowledgeBlock]
  rw [appendNew_moves, markMineAll_moves, markSafeAll_moves]
  rfl

theorem block_klength (obs : ℤ → ℤ → Cell → Finset Cell)
    (s : MinesweeperAI) (cell : Cell) (count : ℤ) :
    s.knowledge.length + 1 ≤ (addKnowledgeBlock obs s cell count).knowledge.length := by
  simp only [addKnowledgeBlock]
  refine le_trans ?_ (appendNew_klength_le _ _)
  rw [markMineAll_klength, markSafeAll_klength, appendObs_knowledge]
  simp [MinesweeperAI.mark_safe]

theorem add_knowledge_height (s : MinesweeperAI) (cell : Cell) (count : ℤ) :
    (s.add_knowledge cell count).height = s.height := by
  rw [MinesweeperAI.add_knowledge, block_height, block_height]

theorem add_knowledge_width (s : MinesweeperAI) (cell : Cell) (count : ℤ) :
    (s.add_knowledge cell count).width = s.width := by
  rw [MinesweeperAI.add_knowledge, block_width, block_width]

theorem add_knowledge_moves (s : MinesweeperAI) (cell : Cell) (count : ℤ) :
    (s.add_knowledge cell count).moves_made = insert cell s.moves_made := by
  rw [MinesweeperAI.add_knowledge, block_moves, block_moves,
    Finset.insert_idem]

theorem add_knowledge_klength (s : MinesweeperAI) (cell : Cell) (count : ℤ) :
    s.knowledge.length + 2 ≤ (s.add_knowledge cell count).knowledge.length := by
  rw [MinesweeperAI.add_knowledge]
  have h1 := block_klength obsCells1 s cell count
  have h2 := block_klength obsCells2 (addKnowledgeBlock obsCells1 s cell count)
    cell count
  omega

/-! ### Monotonic growth of the stores -/

theorem grows_refl (s : MinesweeperAI) : Grows s s :=
  ⟨rfl, rfl, Finset.Subset.refl _, Finset.Subset.refl _, Finset.Subset.refl _,
   le_refl _⟩

theorem grows_trans {s t u : MinesweeperAI} (h1 : Grows s t) (h2 : Grows t u) :
    Grows s u :=
  ⟨h1.1.trans h2.1, h1.2.1.trans h2.2.1,
   h1.2.2.1.trans h2.2.2.1, h1.2.2.2.1.trans h2.2.2.2.1,
   h1.2.2.2.2.1.trans h2.2.2.2.2.1, h1.2.2.2.2.2.trans h2.2.2.2.2.2⟩

theorem foldl_grows {α : Type} (step : MinesweeperAI → α → MinesweeperAI)
    (h : ∀ s a, Grows s (step s a)) :
    ∀ (l : List α) (s : MinesweeperAI), Grows s (l.foldl step s) := by
  intro l
  induction l with
  | nil => intro s; exact grows_refl s
  | cons a t ih => intro s; exact grows_trans (h s a) (ih (step s a))

theorem grows_mark_safe (s : MinesweeperAI) (c : Cell) :
    Grows s (s.mark_safe c) :=
  ⟨rfl, rfl, Finset.Subset.refl _, Finset.Subset.refl _,
   Finset.subset_insert c s.safes, le_of_eq (mark_safe_klength s c).symm⟩

theorem grows_mark_mine (s : MinesweeperAI) (c : Cell) :
    Grows s (s.mark_mine c) :=
  ⟨rfl, rfl, Finset.Subset.refl _, Finset.subset_insert c s.mines,
   Finset.Subset.refl _, le_of_eq (mark_mine_klength s c).symm⟩

theorem grows_markSafeAll (s : MinesweeperAI) (F : Finset Cell) :
    Grows s (markSafeAll s F) :=
  foldl_grows MinesweeperAI.mark_safe grows_mark_safe (sortedCells F) s

theorem grows_markMineAll (s : MinesweeperAI) (F : Finset Cell) :
    Grows s (markMineAll s F) :=
  foldl_grows MinesweeperAI.mark_mine grows_mark_mine (sortedCells F) s

theorem grows_appendNew (s : MinesweeperAI) (l : List Sentence) :
    Grows s (appendNew s l) :=
  ⟨(appendNew_height s l).symm, (appendNew_width s l).symm,
   le_of_eq (appendNew_moves s l).symm, le_of_eq (appendNew_mines s l).symm,
   le_of_eq (appendNew_safes s l).symm, appendNew_klength_le s l⟩

theorem grows_appendObs (obs : ℤ → ℤ → Cell → Finset Cell)
    (s : MinesweeperAI) (cell : Cell) (count : ℤ) :
    Grows s (appendObs obs s cell count) :=
  ⟨rfl, rfl, Finset.Subset.refl _, Finset.Subset.refl _, Finset.Subset.refl _,
   by rw [appendObs_knowledge]; simp⟩

theorem grows_block (obs : ℤ → ℤ → Cell → Finset Cell)
    (s : MinesweeperAI) (cell : Cell) (count : ℤ) :
    Grows s (addKnowledgeBlock obs s cell count) := by
  simp only [addKnowledgeBlock]
  refine grows_trans ?_ (grows_trans (grows_appendObs obs _ cell count)
    (grows_trans (grows_markSafeAll _ _) (grows_trans (grows_markMineAll _ _)
      (grows_appendNew _ _))))
  exact grows_trans
    (⟨rfl, rfl, Finset.subset_insert cell s.moves_made, Finset.Subset.refl _,
      Finset.Subset.refl _, le_refl _⟩ :
      Grows s { s with moves_made := insert cell s.moves_made })
    (grows_mark_safe _ cell)

theorem grows_add_knowledge (s : MinesweeperAI) (cell : Cell) (count : ℤ) :
    Grows s (s.add_knowledge cell count) :=
  grows_trans (grows_block obsCells1 s cell count)
    (grows_block obsCells2 (addKnowledgeBlock obsCells1 s cell count) cell count)

theorem grows_safe_move (s : MinesweeperAI) : Grows s s.make_safe_move.1 := by
  rw [MinesweeperAI.make_safe_move]
  cases (sortedCells s.safes).find? (fun c => decide (c ∉ s.moves_made)) with
  | none => exact grows_refl s
  | some c =>
    exact ⟨rfl, rfl, Finset.subset_insert c s.moves_made,
      Finset.Subset.refl _, Finset.Subset.refl _, le_refl _⟩

theorem grows_flag_move (s : MinesweeperAI) : Grows s s.make_flag_move.1 := by
  rw [MinesweeperAI.make_flag_move]
  cases (sortedCells s.mines).find? (fun c => decide (c ∉ s.moves_made)) with
  | none => exact grows_refl s
  | some c =>
    exact ⟨rfl, rfl, Finset.subset_insert c s.moves_made,
      Finset.Subset.refl _, Finset.Subset.refl _, le_refl _⟩

theorem grows_applyOp (s : MinesweeperAI) (op : AIOp) :
    Grows s (applyOp s op) := by
  cases op with
  | observe c n => exact grows_add_knowledge s c n
  | safeMove => exact grows_safe_move s
  | flagMove => exact grows_flag_move s
  | randomMove k => exact grows_refl s

theorem grows_runOps (s : MinesweeperAI) (l : List AIOp) :
    Grows s (runOps s l) :=
  foldl_grows applyOp grows_applyOp l s

/-! ### Soundness under a ground-truth mine placement -/

theorem sentenceTrue_mark_safe {M : Finset Cell} {t : Sentence} {c : Cell}
    (hc : c ∉ M) (ht : SentenceTrue M t) : SentenceTrue M (t.mark_safe c) := by
  rw [Sentence.mark_safe]
  split
  · have key : t.cells.erase c ∩ M = t.cells ∩ M := by
      ext x
      simp only [Finset.mem_inter, Finset.mem_erase]
      constructor
      · rintro ⟨⟨-, hx⟩, hm⟩; exact ⟨hx, hm⟩
      · rintro ⟨hx, hm⟩
        exact ⟨⟨fun he => hc (he ▸ hm), hx⟩, hm⟩
    rw [SentenceTrue] at ht ⊢
    simpa [key] using ht
  · exact ht

theorem sentenceTrue_mark_mine {M : Finset Cell} {t : Sentence} {c : Cell}
    (hc : c ∈ M) (ht : SentenceTrue M t) : SentenceTrue M (t.mark_mine c) := by
  rw [Sentence.mark_mine]
  split
  · rename_i hmem
    have key : t.cells.erase c ∩ M = (t.cells ∩ M).erase c := by
      ext x
      simp only [Finset.mem_inter, Finset.mem_erase]
      tauto
    have hcm : c ∈ t.cells ∩ M := Finset.mem_inter.mpr ⟨hmem, hc⟩
    have hcard := Finset.card_erase_of_mem hcm
    have hpos : 0 < (t.cells ∩ M).card := Finset.card_pos.mpr ⟨c, hcm⟩
    rw [SentenceTrue] at ht ⊢
    simp only [key, hcard]
    omega
  · exact ht

theorem known_safes_not_mine {M : Finset Cell} {t : Sentence}
    (ht : SentenceTrue M t) {c : Cell} (hc : c ∈ t.known_safes) : c ∉ M := by
  rw [Sentence.known_safes] at hc
  split at hc
  · rename_i hz
    intro hm
    have hcm : c ∈ t.cells ∩ M := Finset.mem_inter.mpr ⟨hc, hm⟩
    have hpos : 0 < (t.cells ∩ M).card := Finset.card_pos.mpr ⟨c, hcm⟩
    rw [SentenceTrue] at ht
    omega
  · simp at hc

theorem known_mines_mem {M : Finset Cell} {t : Sentence}
    (ht : SentenceTrue M t) {c : Cell} (hc : c ∈ t.known_mines) : c ∈ M := by
  rw [Sentence.known_mines] at hc
  split at hc
  · rename_i hfull
    rw [SentenceTrue] at ht
    have hsub : t.cells ∩ M ⊆ t.cells := Finset.inter_subset_left
    have hle : t.cells.card ≤ (t.cells ∩ M).card := by omega
    have heq : t.cells ∩ M = t.cells :=
      Finset.eq_of_subset_of_card_le hsub hle
    have : c ∈ t.cells ∩ M := heq.symm ▸ hc
    exact (Finset.mem_inter.mp this).2
  · simp at hc

theorem subsume_true {M : Finset Cell} {t1 t2 : Sentence}
    (h1 : SentenceTrue M t1) (h2 : SentenceTrue M t2)
    (hsub : t1.cells ⊆ t2.cells) :
    SentenceTrue M ⟨t2.cells \ t1.cells, t2.count - t1.count⟩ := by
  rw [SentenceTrue] at h1 h2 ⊢
  have key : (t2.cells \ t1.cells) ∩ M = (t2.cells ∩ M) \ (t1.cells ∩ M) := by
    ext x
    simp only [Finset.mem_inter, Finset.mem_sdiff]
    tauto
  have hmono : t1.cells ∩ M ⊆ t2.cells ∩ M :=
    Finset.inter_subset_inter hsub (Finset.Subset.refl M)
  have hcard := Finset.card_sdiff hmono
  have hle := Finset.card_le_card hmono
  simp only [key, hcard]
  omega

theorem sound_mark_safe {M : Finset Cell} {s : MinesweeperAI} {c : Cell}
    (hc : c ∉ M) (hs : Sound M s) : Sound M (s.mark_safe c) := by
  obtain ⟨hm, hsafe, hkn⟩ := hs
  refine ⟨fun x hx => hm x hx, ?_, ?_⟩
  · intro x hx
    rw [mark_safe_safes] at hx
    rcases Finset.mem_insert.mp hx with h | h
    · exact h ▸ hc
    · exact hsafe x h
  · intro t ht
    simp only [MinesweeperAI.mark_safe, List.mem_map] at ht
    obtain ⟨u, hu, rfl⟩ := ht
    exact sentenceTrue_mark_safe hc (hkn u hu)

theorem sound_mark_mine {M : Finset Cell} {s : MinesweeperAI} {c : Cell}
    (hc : c ∈ M) (hs : Sound M s) : Sound M (s.mark_mine c) := by
  obtain ⟨hm, hsafe, hkn⟩ := hs
  refine ⟨?_, fun x hx => hsafe x hx, ?_⟩
  · intro x hx
    rw [mark_mine_mines] at hx
    rcases Finset.mem_insert.mp hx with h | h
    · exact h ▸ hc
    · exact hm x h
  · intro t ht
    simp only [MinesweeperAI.mark_mine, List.mem_map] at ht
    obtain ⟨u, hu, rfl⟩ := ht
    exact sentenceTrue_mark_mine hc (hkn u hu)

theorem sound_fold_mark_safe {M : Finset Cell} :
    ∀ (l : List Cell) (s : MinesweeperAI), (∀ c ∈ l, c ∉ M) → Sound M s →
      Sound M (l.foldl MinesweeperAI.mark_safe s) := by
  intro l
  induction l with
  | nil => intro s _ hs; exact hs
  | cons c rest ih =>
    intro s hl hs
    rw [List.foldl_cons]
    exact ih _ (fun x hx => hl x (List.mem_cons_of_mem c hx))
      (sound_mark_safe (hl c (List.mem_cons_self c rest)) hs)

theorem sound_fold_mark_mine {M : Finset Cell} :
    ∀ (l : List Cell) (s : MinesweeperAI), (∀ c ∈ l, c ∈ M) → Sound M s →
      Sound M (l.foldl MinesweeperAI.mark_mine s) := by
  intro l
  induction l with
  | nil => intro s _ hs; exact hs
  | cons c rest ih =>
    intro s hl hs
    rw [List.foldl_cons]
    exact ih _ (fun x hx => hl x (List.mem_cons_of_mem c hx))
      (sound_mark_mine (hl c (List.mem_cons_self c rest)) hs)

theorem sound_markSafeAll {M : Finset Cell} {s : MinesweeperAI}
    {F : Finset Cell} (hF : ∀ c ∈ F, c ∉ M) (hs : Sound M s) :
    Sound M (markSafeAll s F) :=
  sound_fold_mark_safe (sortedCells F) s
    (fun c hc => hF c ((mem_sortedCells c F).mp hc)) hs

theorem sound_markMineAll {M : Finset Cell} {s : MinesweeperAI}
    {F : Finset Cell} (hF : ∀ c ∈ F, c ∈ M) (hs : Sound M s) :
    Sound M (markMineAll s F) :=
  sound_fold_mark_mine (sortedCells F) s
    (fun c hc => hF c ((mem_sortedCells c F).mp hc)) hs

theorem deriveFacts_aux {M : Finset Cell} :
    ∀ (kn : List Sentence) (acc : Finset Cell × Finset Cell),
      (∀ t ∈ kn, SentenceTrue M t) →
      (∀ c ∈ acc.1, c ∉ M) → (∀ c ∈ acc.2, c ∈ M) →
      (∀ c ∈ (kn.foldl deriveStep acc).1, c ∉ M) ∧
      (∀ c ∈ (kn.foldl deriveStep acc).2, c ∈ M) := by
  intro kn
  induction kn with
  | nil => intro acc _ h1 h2; exact ⟨h1, h2⟩
  | cons t rest ih =>
    intro acc hkn h1 h2
    have htt : SentenceTrue M t := hkn t (List.mem_cons_self t rest)
    rw [List.foldl_cons]
    refine ih _ (fun u hu => hkn u (List.mem_cons_of_mem t hu)) ?_ ?_
    · intro c hc
      simp only [deriveStep] at hc
      split at hc <;> split at hc <;>
        first
          | exact h1 c hc
          | (rcases Finset.mem_union.mp hc with hc | hc
             · exact h1 c hc
             · exact known_safes_not_mine htt hc)
    · intro c hc
      simp only [deriveStep] at hc
      split at hc <;> split at hc <;>
        first
          | exact h2 c hc
          | (rcases Finset.mem_union.mp hc with hc | hc
             · exact h2 c hc
             · exact known_mines_mem htt hc)

theorem deriveFacts_sound {M : Finset Cell} {kn : List Sentence}
    (h : ∀ t ∈ kn, SentenceTrue M t) :
    (∀ c ∈ (deriveFacts kn).1, c ∉ M) ∧ (∀ c ∈ (deriveFacts kn).2, c ∈ M) :=
  deriveFacts_aux kn (∅, ∅) h (by simp) (by simp)

theorem subsume_fold_true {M : Finset Cell} {s1 : Sentence}
    (h1 : SentenceTrue M s1) :
    ∀ (l : List Sentence) (acc : List Sentence),
      (∀ t ∈ l, SentenceTrue M t) → (∀ t ∈ acc, SentenceTrue M t) →
      ∀ t ∈ l.foldl (subsumeWith s1) acc, SentenceTrue M t := by
  intro l
  induction l with
  | nil => intro acc _ hacc; exact hacc
  | cons s2 rest ih =>
    intro acc hl hacc
    rw [List.foldl_cons]
    refine ih _ (fun u hu => hl u (List.mem_cons_of_mem s2 hu)) ?_
    intro t ht
    rw [subsumeWith] at ht
    split at ht
    · rename_i hcond
      rcases List.mem_append.mp ht with h | h
      · exact hacc t h
      · rcases List.mem_singleton.mp h with rfl
        exact subsume_true h1 (hl s2 (List.mem_cons_self s2 rest)) hcond.2
    · exact hacc t ht

theorem inferNew_true {M : Finset Cell} {kn : List Sentence}
    (h : ∀ t ∈ kn, SentenceTrue M t) :
    ∀ t ∈ inferNew kn, SentenceTrue M t := by
  rw [inferNew]
  have aux : ∀ (outer acc : List Sentence),
      (∀ t ∈ outer, SentenceTrue M t) → (∀ t ∈ acc, SentenceTrue M t) →
      ∀ t ∈ outer.foldl (fun acc2 s1 => kn.foldl (subsumeWith s1) acc2) acc,
        SentenceTrue M t := by
    intro outer
    induction outer with
    | nil => intro acc _ hacc; exact hacc
    | cons s1 rest ih =>
      intro acc houter hacc
      rw [List.foldl_cons]
      exact ih _ (fun u hu => houter u (List.mem_cons_of_mem s1 hu))
        (subsume_fold_true (houter s1 (List.mem_cons_self s1 rest)) kn acc h hacc)
  exact aux kn [] h (by simp)

theorem appendNew_sound {M : Finset Cell} :
    ∀ (l : List Sentence) (s : MinesweeperAI), Sound M s →
      (∀ t ∈ l, SentenceTrue M t) → Sound M (appendNew s l) := by
  intro l
  induction l with
  | nil => intro s hs _; exact hs
  | cons t rest ih =>
    intro s hs hl
    rw [appendNew, List.foldl_cons]
    have hstep : Sound M (if t ∈ s.knowledge then s
        else { s with knowledge := s.knowledge ++ [t] }) := by
      split
      · exact hs
      · obtain ⟨hm, hsafe, hkn⟩ := hs
        refine ⟨hm, hsafe, ?_⟩
        intro u hu
        rcases List.mem_append.mp hu with h | h
        · exact hkn u h
        · rcases List.mem_singleton.mp h with rfl
          exact hl u (List.mem_cons_self u rest)
    exact ih _ hstep (fun u hu => hl u (List.mem_cons_of_mem t hu))

theorem appendObs_sound {M : Finset Cell} {obs : ℤ → ℤ → Cell → Finset Cell}
    {s : MinesweeperAI} {cell : Cell} {count : ℤ} (hs : Sound M s)
    (hcount : count = ((obs s.height s.width cell ∩ M).card : ℤ)) :
    Sound M (appendObs obs s cell count) := by
  obtain ⟨hm, hsafe, hkn⟩ := hs
  refine ⟨hm, hsafe, ?_⟩
  intro t ht
  rw [appendObs_knowledge] at ht
  rcases List.mem_append.mp ht with h | h
  · exact hkn t h
  · rcases List.mem_singleton.mp h with rfl
    exact hcount

theorem block_sound {M : Finset Cell} {obs : ℤ → ℤ → Cell → Finset Cell}
    {s : MinesweeperAI} {cell : Cell} {count : ℤ}
    (hs : Sound M s) (hc : cell ∉ M)
    (hcount : count = ((obs s.height s.width cell ∩ M).card : ℤ)) :
    Sound M (addKnowledgeBlock obs s cell count) := by
  simp only [addKnowledgeBlock]
  have hs1 : Sound M { s with moves_made := insert cell s.moves_made } := hs
  have hs2 : Sound M
      (MinesweeperAI.mark_safe { s with moves_made := insert cell s.moves_made }
        cell) :=
    sound_mark_safe hc hs1
  have hs3 : Sound M (appendObs obs
      (MinesweeperAI.mark_safe { s with moves_made := insert cell s.moves_made }
        cell) cell count) :=
    appendObs_sound hs2 hcount
  have hfacts := deriveFacts_sound hs3.2.2
  have hs4 := sound_markSafeAll hfacts.1 hs3
  have hs5 : Sound M (markMineAll (markSafeAll (appendObs obs
      (MinesweeperAI.mark_safe { s with moves_made := insert cell s.moves_made }
        cell) cell count)
      (deriveFacts (appendObs obs
        (MinesweeperAI.mark_safe { s with moves_made := insert cell s.moves_made }
          cell) cell count).knowledge).1)
      (deriveFacts (appendObs obs
        (MinesweeperAI.mark_safe { s with moves_made := insert cell s.moves_made }
          cell) cell count).knowledge).2) :=
    sound_markMineAll hfacts.2 hs4
  exact appendNew_sound _ _ hs5 (inferNew_true hs5.2.2)

theorem add_knowledge_sound {M : Finset Cell} {s : MinesweeperAI}
    {cell : Cell} {count : ℤ} (hs : Sound M s) (hc : cell ∉ M)
    (hcount : count = ((obsCells2 s.height s.width cell ∩ M).card : ℤ)) :
    Sound M (s.add_knowledge cell count) := by
  rw [MinesweeperAI.add_knowledge]
  have h1 : Sound M (addKnowledgeBlock obsCells1 s cell count) := by
    refine block_sound hs hc ?_
    rw [obsCells1_eq_obsCells2]
    exact hcount
  refine block_sound h1 hc ?_
  rw [block_height, block_width]
  exact hcount

theorem sound_initAI (M : Finset Cell) (height width : ℤ) :
    Sound M (initAI height width) :=
  ⟨by simp [initAI], by simp [initAI], by simp [initAI]⟩

theorem sound_foldObs {M : Finset Cell} :
    ∀ (l : List (Cell × ℤ)) (s : MinesweeperAI), Sound M s →
      (∀ p ∈ l, p.1 ∉ M ∧
        p.2 = ((obsCells2 s.height s.width p.1 ∩ M).card : ℤ)) →
      Sound M (l.foldl (fun t p => t.add_knowledge p.1 p.2) s) := by
  intro l
  induction l with
  | nil => intro s hs _; exact hs
  | cons p rest ih =>
    intro s hs hl
    rw [List.foldl_cons]
    have hp := hl p (List.mem_cons_self p rest)
    refine ih _ (add_knowledge_sound hs hp.1 hp.2) ?_
    intro q hq
    rw [add_knowledge_height, add_knowledge_width]
    exact hl q (List.mem_cons_of_mem p hq)

/-! ### The claims -/

/-- C1: the claim says every `observe` call saturates: one additional full
pass after it returns derives nothing new.  The code instead performs exactly
two inference rounds (its body is duplicated, with no loop), and on the
consistent gameplay `c1Trace` (2×3 board, single mine at `(0,0)`, true
counts) the returned store still contains the sentence forcing `(0,0)` to be
a mine: a further pass newly derives the mine `(0,0)`, so the store is not a
fixpoint and the cell is never marked, contradicting the claim and the
function's own documentation (step 4: mark any cell that can be concluded). -/
theorem C1_saturation_fails :
    ConsistentSeq {((0:ℤ),(0:ℤ))} 2 3 c1Trace ∧
    ¬ inferenceFixpoint (runObs 2 3 c1Trace) ∧
    ((0:ℤ),(0:ℤ)) ∈ (deriveFacts (runObs 2 3 c1Trace).knowledge).2 ∧
    ((0:ℤ),(0:ℤ)) ∉ (runObs 2 3 c1Trace).mines := by
  set_option maxHeartbeats 4000000 in decide

/-- C2 counterexample: on a 1×1 board the observed cell has no neighbors, so
per the claim the (empty-celled) constraint must not be appended and the
store stays empty — the spec-following `specAppendObs` indeed appends
nothing — but the code appends the constraint unconditionally. -/
theorem C2_counterexample :
    (specAppendObs (initAI 1 1) ((0:ℤ),(0:ℤ)) 0).knowledge = [] ∧
    (MinesweeperAI.add_knowledge (initAI 1 1) ((0:ℤ),(0:ℤ)) 0).knowledge
      ≠ [] := by
  decide

/-- C2 amended: the observation constraint built by each of the two blocks
has as its cells exactly the in-bounds Chebyshev-distance-1 neighbors of the
observed cell (with no exclusion of known mines or known safes), its count is
the reported count unchanged, and it is appended unconditionally, even when
its cell set is empty. -/
theorem C2_amended (height width : ℤ) (cell : Cell) (s : MinesweeperAI)
    (count : ℤ) :
    obsCells1 height width cell = chebNeighbors height width cell ∧
    obsCells2 height width cell = chebNeighbors height width cell ∧
    (appendObs obsCells1 s cell count).knowledge
      = s.knowledge ++ [⟨chebNeighbors s.height s.width cell, count⟩] ∧
    (appendObs obsCells2 s cell count).knowledge
      = s.knowledge ++ [⟨chebNeighbors s.height s.width cell, count⟩] := by
  refine ⟨obsCells1_eq_cheb height width cell, obsCells2_eq_cheb height width cell,
    ?_, ?_⟩
  · rw [appendObs_knowledge, obsCells1_eq_cheb]
  · rw [appendObs_knowledge, obsCells2_eq_cheb]

/-- C3 counterexample: repeating `observe((0,0), 1)` on a 3×3 board does not
leave the store unchanged — the duplicate call appends the observation
sentence again (twice), so the constraint collection differs. -/
theorem C3_counterexample :
    (MinesweeperAI.add_knowledge
        (MinesweeperAI.add_knowledge (initAI 3 3) ((0:ℤ),(0:ℤ)) 1)
        ((0:ℤ),(0:ℤ)) 1).knowledge
      ≠ (MinesweeperAI.add_knowledge (initAI 3 3) ((0:ℤ),(0:ℤ)) 1).knowledge := by
  decide

/-- C3 amended: a second call with identical arguments leaves `moves_made`
unchanged (the cell is already recorded) and does not raise, but the
constraint collection always grows by at least the two re-appended copies of
the observation sentence: the store is never unchanged. -/
theorem C3_amended (s : MinesweeperAI) (cell : Cell) (count : ℤ) :
    ((s.add_knowledge cell count).add_knowledge cell count).moves_made
      = (s.add_knowledge cell count).moves_made ∧
    (s.add_knowledge cell count).knowledge.length + 2
      ≤ ((s.add_knowledge cell count).add_knowledge cell count).knowledge.length := by
  constructor
  · rw [add_knowledge_moves, add_knowledge_moves, Finset.insert_idem]
  · exact add_knowledge_klength _ cell count

/-- C4 counterexample: on a 1×3 board the two observations of `c4Trace` each
satisfy the stated count precondition (count between 0 and the number of
valid neighbors), yet after the second call `(0,1)` is in both `known_mines`
and `known_safe`. -/
theorem C4_counterexample :
    (∀ p ∈ c4Trace, 0 ≤ p.2 ∧ p.2 ≤ ((obsCells2 1 3 p.1).card : ℤ)) ∧
    ((0:ℤ),(1:ℤ)) ∈ (runObs 1 3 c4Trace).mines ∧
    ((0:ℤ),(1:ℤ)) ∈ (runObs 1 3 c4Trace).safes := by
  decide

/-- C4 amended: for every observation sequence consistent with some
ground-truth mine placement (each observed cell a non-mine, each count the
true number of mines among its in-bounds neighbors), the sets of known mines
and known safes are disjoint after every call. -/
theorem C4_amended (M : Finset Cell) (height width : ℤ)
    (l : List (Cell × ℤ)) (h : ConsistentSeq M height width l) :
    (runObs height width l).mines ∩ (runObs height width l).safes = ∅ := by
  have hs : Sound M (runObs height width l) := by
    rw [runObs]
    exact sound_foldObs l (initAI height width) (sound_initAI M height width) h
  rw [Finset.eq_empty_iff_forall_not_mem]
  intro c hc
  rw [Finset.mem_inter] at hc
  exact hs.2.1 c hc.2 (hs.1 c hc.1)

/-- C4 witness: a concrete consistent game on a 1×3 board with its mine at
`(0,2)`; the theorem applies and the two sets are disjoint. -/
theorem C4_witness :
    ConsistentSeq {((0:ℤ),(2:ℤ))} 1 3
      [(((0:ℤ),(1:ℤ)), 1), (((0:ℤ),(0:ℤ)), 0)] ∧
    (runObs 1 3 [(((0:ℤ),(1:ℤ)), 1), (((0:ℤ),(0:ℤ)), 0)]).mines ∩
      (runObs 1 3 [(((0:ℤ),(1:ℤ)), 1), (((0:ℤ),(0:ℤ)), 0)]).safes = ∅ :=
  ⟨by decide, C4_amended {((0:ℤ),(2:ℤ))} 1 3
    [(((0:ℤ),(1:ℤ)), 1), (((0:ℤ),(0:ℤ)), 0)] (by decide)⟩

/-- C5 counterexample: `observe((0,0), 1)` on a fresh 3×3 board leaves two
constraints in the collection (the duplicated body appends the observation
sentence twice), not exactly one as claimed. -/
theorem C5_counterexample :
    (MinesweeperAI.add_knowledge (initAI 3 3) ((0:ℤ),(0:ℤ)) 1).knowledge.length
      ≠ 1 := by
  decide

/-- C5 amended: `observe((0,0), 1)` on a fresh 3×3 board leaves exactly two
structurally equal constraints `{cells: {(0,1),(1,0),(1,1)}, count: 1}` in the
collection, marks no mine, and marks no safe cell beyond `(0,0)` itself. -/
theorem C5_amended :
    (MinesweeperAI.add_knowledge (initAI 3 3) ((0:ℤ),(0:ℤ)) 1).knowledge
      = [⟨{((0:ℤ),(1:ℤ)), ((1:ℤ),(0:ℤ)), ((1:ℤ),(1:ℤ))}, 1⟩,
         ⟨{((0:ℤ),(1:ℤ)), ((1:ℤ),(0:ℤ)), ((1:ℤ),(1:ℤ))}, 1⟩] ∧
    (MinesweeperAI.add_knowledge (initAI 3 3) ((0:ℤ),(0:ℤ)) 1).mines = ∅ ∧
    (MinesweeperAI.add_knowledge (initAI 3 3) ((0:ℤ),(0:ℤ)) 1).safes
      = {((0:ℤ),(0:ℤ))} := by
  decide

/-- C6 counterexample: with exactly the constraints `A` and `B` in the store,
observing the cell `(0,2)` itself (count 0) resolves `(0,2)` as safe, so it
does not end up in `known_mines`, contradicting the claim's unconditional
"whenever". -/
theorem C6_counterexample :
    ((0:ℤ),(2:ℤ)) ∉ (stateAB.add_knowledge ((0:ℤ),(2:ℤ)) 0).mines := by
  decide

/-- C6 amended: with exactly the constraints `A` and `B` in the store, an
observation that does not touch their cells (cell `(2,2)` on the 3×3 board,
with each of the counts 0, 1, 2, 3 of its precondition range) makes
saturation derive `{cells: {(0,2)}, count: 1}` by subsumption and resolve it,
so `(0,2)` ends up in `known_mines`. -/
theorem C6_amended :
    ((0:ℤ),(2:ℤ)) ∈ (stateAB.add_knowledge ((2:ℤ),(2:ℤ)) 0).mines ∧
    ((0:ℤ),(2:ℤ)) ∈ (stateAB.add_knowledge ((2:ℤ),(2:ℤ)) 1).mines ∧
    ((0:ℤ),(2:ℤ)) ∈ (stateAB.add_knowledge ((2:ℤ),(2:ℤ)) 2).mines ∧
    ((0:ℤ),(2:ℤ)) ∈ (stateAB.add_knowledge ((2:ℤ),(2:ℤ)) 3).mines := by
  exact ⟨by decide, by decide, by decide, by decide⟩

/-- C7 counterexample: the two observations of `c7Trace` on a 3×3 board each
satisfy the stated count precondition, yet afterwards the collection contains
sentences violating `0 ≤ count ≤ |cells|` (among them an empty-celled
sentence with count 1 and one with count −1). -/
theorem C7_counterexample :
    (∀ p ∈ c7Trace, 0 ≤ p.2 ∧ p.2 ≤ ((obsCells2 3 3 p.1).card : ℤ)) ∧
    (⟨∅, 1⟩ : Sentence) ∈ (runObs 3 3 c7Trace).knowledge ∧
    (⟨∅, -1⟩ : Sentence) ∈ (runObs 3 3 c7Trace).knowledge ∧
    ¬ (∀ t ∈ (runObs 3 3 c7Trace).knowledge,
        0 ≤ t.count ∧ t.count ≤ (t.cells.card : ℤ)) := by
  set_option maxHeartbeats 2000000 in decide

/-- C7 amended: for every observation sequence consistent with some
ground-truth mine placement, every constraint in the collection satisfies
`0 ≤ count ≤ |cells|` after every call. -/
theorem C7_amended (M : Finset Cell) (height width : ℤ)
    (l : List (Cell × ℤ)) (h : ConsistentSeq M height width l) :
    ∀ t ∈ (runObs height width l).knowledge,
      0 ≤ t.count ∧ t.count ≤ (t.cells.card : ℤ) := by
  have hs : Sound M (runObs height width l) := by
    rw [runObs]
    exact sound_foldObs l (initAI height width) (sound_initAI M height width) h
  intro t ht
  have htt := hs.2.2 t ht
  rw [SentenceTrue] at htt
  have hle : (t.cells ∩ M).card ≤ t.cells.card :=
    Finset.card_le_card Finset.inter_subset_left
  omega

/-- C7 witness: the amended theorem applied to a concrete consistent game on
a 1×3 board with its mine at `(0,2)`. -/
theorem C7_witness :
    ConsistentSeq {((0:ℤ),(2:ℤ))} 1 3 [(((0:ℤ),(1:ℤ)), 1)] ∧
    (∀ t ∈ (runObs 1 3 [(((0:ℤ),(1:ℤ)), 1)]).knowledge,
      0 ≤ t.count ∧ t.count ≤ (t.cells.card : ℤ)) :=
  ⟨by decide, C7_amended {((0:ℤ),(2:ℤ))} 1 3 [(((0:ℤ),(1:ℤ)), 1)] (by decide)⟩

/-- C8: across any sequence of `observe`, `safe_move`, `flag_move` and
`random_move` calls, the sets of known mines, known safes and moves made only
grow: every cell present before the sequence is still present after it. -/
theorem C8_monotonicity (s : MinesweeperAI) (l : List AIOp) :
    s.mines ⊆ (runOps s l).mines ∧ s.safes ⊆ (runOps s l).safes ∧
    s.moves_made ⊆ (runOps s l).moves_made :=
  ⟨(grows_runOps s l).2.2.2.1, (grows_runOps s l).2.2.2.2.1,
   (grows_runOps s l).2.2.1⟩

/-- C9: `make_random_move` (with the random draw modelled as an arbitrary
selection index) returns `none` exactly when the set of board cells minus
`moves_made` minus `mines` is empty, and any returned cell belongs to that
set — in particular it is never a known mine, in every state. -/
theorem C9_random_move (s : MinesweeperAI) (k : ℕ) :
    (s.make_random_move k = none ↔ validMoves s = ∅) ∧
    ∀ c : Cell, s.make_random_move k = some c →
      c ∈ validMoves s ∧ c ∉ s.mines := by
  constructor
  · rw [MinesweeperAI.make_random_move]
    split
    · rename_i h
      constructor
      · intro _
        exact Finset.card_eq_zero.mp (by rw [← length_sortedCells]; exact h)
      · intro _; rfl
    · rename_i h
      constructor
      · intro hcontra; exact absurd hcontra (by simp)
      · intro hempty
        exact absurd (by rw [length_sortedCells, hempty]; rfl) h
  · intro c hc
    rw [MinesweeperAI.make_random_move] at hc
    split at hc
    · exact absurd hc (by simp)
    · have hmem : c ∈ sortedCells (validMoves s) := by
        rw [← Option.some.inj hc]
        exact List.get_mem _ _ _
      have hv : c ∈ validMoves s := (mem_sortedCells c _).mp hmem
      refine ⟨hv, ?_⟩
      rw [validMoves] at hv
      exact (Finset.mem_sdiff.mp hv).2

/-- C9 witness: on a fresh 2×2 engine the random move with index 0 returns
`(0,0)`, which is a valid move and not a known mine. -/
theorem C9_witness :
    ((0:ℤ),(0:ℤ)) ∈ validMoves (initAI 2 2) ∧
    ((0:ℤ),(0:ℤ)) ∉ (initAI 2 2).mines :=
  (C9_random_move (initAI 2 2) 0).2 ((0:ℤ),(0:ℤ)) (by decide)

/-- C10: every `add_knowledge` call appends the observation sentence twice —
the two blocks construct structurally equal sentences — and never removes
one, so the collection grows by at least 2 on every observation, and no
engine call ever shrinks the collection. -/
theorem C10_knowledge_growth (s : MinesweeperAI) (cell : Cell) (count : ℤ) :
    s.knowledge.length + 2 ≤ (s.add_knowledge cell count).knowledge.length ∧
    (⟨obsCells1 s.height s.width cell, count⟩ : Sentence)
      = ⟨obsCells2 s.height s.width cell, count⟩ ∧
    ∀ op : AIOp, s.knowledge.length ≤ (applyOp s op).knowledge.length :=
  ⟨add_knowledge_klength s cell count,
   by rw [obsCells1_eq_obsCells2],
   fun op => (grows_applyOp s op).2.2.2.2.2⟩
